import Mathlib

/-!
Verification of the libconfig numeric-literal codec (src/lib/util.c) and the
setting-tree copier (src/contrib/copy_setting.c).

Pure C functions are embedded as Lean functions on `List Char` / `Nat` / `Int`;
unsigned 64-bit arithmetic is `Nat` with explicit reduction modulo `2 ^ 64`.
Functions from the C standard library (strtoll) and the tree container that
are not part of the sources are modelled from the specification; each such
definition carries a doc comment starting with "Modelled from the spec:".
-/

set_option maxHeartbeats 1000000

namespace LibConfig

/-! ## Character classes (C ctype.h, "C" locale) -/

def isSpaceC (c : Char) : Bool :=
  c = ' ' || c = '\t' || c = '\n' || c = '\x0b' || c = '\x0c' || c = '\r'

def isDigitC (c : Char) : Bool := '0' ≤ c && c ≤ '9'

def isOctC (c : Char) : Bool := '0' ≤ c && c ≤ '7'

def isXdigitC (c : Char) : Bool :=
  isDigitC c || ('a' ≤ c && c ≤ 'f') || ('A' ≤ c && c ≤ 'F')

/-- Numeric value of a digit character in bases up to 16. -/
def hexVal (c : Char) : Nat :=
  if isDigitC c then c.toNat - '0'.toNat
  else if 'a' ≤ c && c ≤ 'f' then c.toNat - 'a'.toNat + 10
  else c.toNat - 'A'.toNat + 10

/-! ## Modelled strtoll (base 0) -/

def LLONG_MAX : Int := 2 ^ 63 - 1

def LLONG_MIN : Int := -(2 ^ 63)

/-- Exact (unbounded) value of a digit string in the given base. -/
def foldDigits (base : Nat) (ds : List Char) : Nat :=
  ds.foldl (fun a c => base * a + hexVal c) 0

/-- Outcome of the modelled `strtoll`: the clamped value, the number of
characters consumed (position of `endptr`), and whether ERANGE occurred. -/
structure StrtollOut where
  val : Int
  consumed : Nat
  erange : Bool
deriving DecidableEq

/-- True when the text, after sign processing, starts a hexadecimal subject
sequence: `0x`/`0X` followed by at least one hexadecimal digit. -/
def hexSubject (t : List Char) : Bool :=
  match t with
  | '0' :: c :: d :: _ => (c = 'x' || c = 'X') && isXdigitC d
  | _ => false

/-- True when the text starts with the digit `0` (octal subject sequence). -/
def octSubject (t : List Char) : Bool :=
  match t with
  | '0' :: _ => true
  | _ => false

/-- Clamp-and-flag step of the modelled `strtoll`. -/
def strtollFinish (consumed : Nat) (neg : Bool) (mag : Nat) : StrtollOut :=
  let exact : Int := if neg then -(mag : Int) else (mag : Int)
  let er : Bool := exact < LLONG_MIN || exact > LLONG_MAX
  ⟨if er then (if neg then LLONG_MIN else LLONG_MAX) else exact, consumed, er⟩

/-- Modelled from the spec: `strtoll(s, &endptr, 0)` from the C library
(called by `libconfig_parse_integer`, src/lib/util.c line 103).  C-style base
auto-detection: after optional whitespace and sign, a leading `0x`/`0X`
selects base 16, a leading `0` selects base 8, otherwise base 10; the longest
valid digit sequence is consumed, `endptr` marks the first unconsumed
character (reset to the start when no digits at all were consumed), and a
value outside the `long long` range raises ERANGE with a clamped result. -/
def strtoll0 (s : List Char) : StrtollOut :=
  let w := (s.takeWhile isSpaceC).length
  let t1 := s.drop w
  let sgnLen : Nat := match t1 with
    | '-' :: _ => 1
    | '+' :: _ => 1
    | _ => 0
  let neg : Bool := match t1 with
    | '-' :: _ => true
    | _ => false
  let t2 := t1.drop sgnLen
  if hexSubject t2 then
    let ds := (t2.drop 2).takeWhile isXdigitC
    strtollFinish (w + sgnLen + 2 + ds.length) neg (foldDigits 16 ds)
  else if octSubject t2 then
    let ds := t2.takeWhile isOctC
    strtollFinish (w + sgnLen + ds.length) neg (foldDigits 8 ds)
  else
    let ds := t2.takeWhile isDigitC
    if ds.length = 0 then ⟨0, 0, false⟩
    else strtollFinish (w + sgnLen + ds.length) neg (foldDigits 10 ds)

/-- Embedding of `libconfig_parse_integer` (src/lib/util.c, lines 97-114):
calls `strtoll` with base 0, then fails (value 0) when `*endptr` is nonzero,
i.e. the input was not fully consumed, or errno (ERANGE) was set. -/
def libconfig_parse_integer (s : List Char) : Int × Bool :=
  let r := strtoll0 s
  if r.consumed = s.length && !r.erange then (r.val, true) else (0, false)

/-! ## parse_hex64 / parse_bin64 (explicit-loop branch of src/lib/util.c) -/

/-- The nibble value the C loop computes:
`(*p < 'A') ? (*p & 0xF) : (9 + (*p & 0x7))`. -/
def xdigitValC (c : Char) : Nat :=
  if c.toNat < 65 then c.toNat &&& 0xF else 9 + (c.toNat &&& 0x7)

/-- Accumulation loop of `libconfig_parse_hex64` (src/lib/util.c lines
137-141): `for(++p; isxdigit(*p); ++p) val <<= 4; val |= nibble;` on an
`unsigned long long` accumulator (hence the reduction modulo `2 ^ 64`). -/
def parseHexLoop : List Char → Nat → Nat
  | [], val => val
  | c :: p, val =>
    if isXdigitC c then parseHexLoop p ((val <<< 4 ||| xdigitValC c) % 2 ^ 64)
    else val

/-- Embedding of `libconfig_parse_hex64` (src/lib/util.c, lines 118-150,
the explicit-loop implementation; the other preprocessor branch delegates to
the C library's `strtoull`): requires the text to start with `0` and then
`x`/`X`, otherwise returns 0; then accumulates hexadecimal digits. -/
def libconfig_parse_hex64 (s : List Char) : Nat :=
  match s with
  | '0' :: c :: p => if c = 'x' || c = 'X' then parseHexLoop p 0 else 0
  | _ => 0

/-- Accumulation loop of `libconfig_parse_bin64` (src/lib/util.c lines
172-176): `for(++p; *p=='0' || *p=='1'; ++p) val <<= 1; val |= *p=='1';`. -/
def parseBinLoop : List Char → Nat → Nat
  | [], val => val
  | c :: p, val =>
    if c = '0' || c = '1' then
      parseBinLoop p ((val <<< 1 ||| (if c = '1' then 1 else 0)) % 2 ^ 64)
    else val

/-- Embedding of `libconfig_parse_bin64` (src/lib/util.c, lines 154-186, the
explicit-loop implementation): requires a `0` then `b`/`B`, otherwise
returns 0; then accumulates binary digits. -/
def libconfig_parse_bin64 (s : List Char) : Nat :=
  match s with
  | '0' :: c :: p => if c = 'b' || c = 'B' then parseBinLoop p 0 else 0
  | _ => 0

/-! ## format_double (src/lib/util.c, lines 190-220) -/

/-- Backward trailing-zero scan of `libconfig_format_double`
(src/lib/util.c lines 212-218): the cursor `q` starts at the last character
and moves left, truncating `'0'` characters (writing a NUL is modelled by
`List.take`), but never reaches position `pIdx + 1`, the digit immediately
after the decimal point at `pIdx`; at `q = 0` the guard `q > pIdx + 1` is
false, so recursion only ever happens with a positive cursor. -/
def stripLoop : List Char → Nat → Nat → List Char
  | buf, _, 0 => buf
  | buf, pIdx, q + 1 =>
    if q + 1 > pIdx + 1 then
      if buf[q + 1]? = some '0' then stripLoop (buf.take (q + 1)) pIdx q else buf
    else buf

/-- Post-processing phase of `libconfig_format_double` (src/lib/util.c lines
198-219), a pure function of the text that `snprintf` rendered: return it
unchanged when it contains an exponent marker; append `".0"` when it has no
decimal point; otherwise strip excess trailing zeros after the decimal
point. -/
def libconfig_format_double_post (buf : List Char) : List Char :=
  if buf.contains 'e' then buf
  else if buf.contains '.' then stripLoop buf (buf.indexOf '.') (buf.length - 1)
  else buf ++ ['.', '0']

/-- Modelled from the spec: the `snprintf("%.*f", precision, val)` rendering
(src/lib/util.c line 196, C library) of a double that holds an exact integer
value: the decimal digits of the integer followed, for nonzero precision, by
a decimal point and `precision` zero digits. -/
def renderFixedWhole (n : Int) (precision : Nat) : List Char :=
  (toString n).toList ++
    (if precision = 0 then [] else '.' :: List.replicate precision '0')

/-- `libconfig_format_double` (src/lib/util.c, lines 190-220) restricted to
`sci_ok = false` and an integer-valued double: fixed-format rendering
followed by the post-processing phase. -/
def libconfig_format_double_fixed (n : Int) (precision : Nat) : List Char :=
  libconfig_format_double_post (renderFixedWhole n precision)

/-! ## format_bin (src/lib/util.c, lines 225-253) -/

/-- The portable `clzl` loop from src/lib/util.c (lines 228-239): counts
leading zero bits of the 64-bit pattern `v`, scanning from bit 63 down; the
argument is the number of bit positions still to scan. -/
def clzLoop (v : Nat) : Nat → Nat
  | 0 => 0
  | r + 1 => if v &&& 2 ^ r = 0 then clzLoop v r + 1 else 0

/-- `clzl` on a 64-bit pattern. -/
def clzl (v : Nat) : Nat := clzLoop v 64

/-- Emission loop of `libconfig_format_bin` (src/lib/util.c lines 246-251):
`while((c < 64) && (i < buflen - 1)) buf[i] = bit(63 - c) ? '1' : '0';`.
The loop counter `c` is represented by the number of bit positions still to
emit, `r = 64 - c` (so the guard `c < 64` is the pattern `r + 1` and the bit
index `63 - c` is `r`); `cap` is `buflen - 1`. -/
def formatBinLoop (u cap : Nat) : Nat → Nat → List Char
  | 0, _ => []
  | r + 1, i =>
    if i < cap then
      (if u &&& 2 ^ r = 0 then '0' else '1') :: formatBinLoop u cap r (i + 1)
    else []

/-- Embedding of `libconfig_format_bin` (src/lib/util.c, lines 241-253): the
`int64_t` argument is modelled by its two's-complement 64-bit bit pattern
`(v % 2 ^ 64).toNat`; the function counts the leading zeros and emits the
remaining bits most-significant first, stopping after `buflen - 1`
characters. -/
def libconfig_format_bin (v : Int) (buflen : Nat) : List Char :=
  let u := (v % ((2 : Int) ^ 64)).toNat
  formatBinLoop u (buflen - 1) (64 - clzl u) 0

/-- The value a binary digit string denotes (most-significant first). -/
def binValC (l : List Char) : Nat :=
  l.foldl (fun a c => 2 * a + (if c = '1' then 1 else 0)) 0

/-- The low `m` bits of `u`, most-significant first. -/
def bitsMSB (u : Nat) : Nat → List Char
  | 0 => []
  | m + 1 => (if u &&& 2 ^ m = 0 then '0' else '1') :: bitsMSB u m

/-- Does the text begin with `0x` or `0X` (the condition named by the spec)? -/
def begins0x (s : List Char) : Bool :=
  match s with
  | '0' :: c :: _ => c = 'x' || c = 'X'
  | _ => false

/-- Does the text begin with `0b` or `0B`? -/
def begins0b (s : List Char) : Bool :=
  match s with
  | '0' :: c :: _ => c = 'b' || c = 'B'
  | _ => false

/-! ## Codec lemmas -/

theorem char_le_toNat (a b : Char) : (a ≤ b) ↔ (a.toNat ≤ b.toNat) := Iff.rfl

/-- The C nibble expression agrees with the standard digit value on
hexadecimal digit characters. -/
theorem xdigitValC_eq_hexVal (c : Char) (h : isXdigitC c = true) :
    xdigitValC c = hexVal c := by
  have e15 : c.toNat &&& 15 = c.toNat % 16 := Nat.and_pow_two_sub_one_eq_mod c.toNat 4
  have e7 : c.toNat &&& 7 = c.toNat % 8 := Nat.and_pow_two_sub_one_eq_mod c.toNat 3
  unfold isXdigitC isDigitC at h
  unfold xdigitValC hexVal isDigitC
  simp only [Bool.or_eq_true, Bool.and_eq_true, decide_eq_true_eq, char_le_toNat,
    show ('0' : Char).toNat = 48 from rfl, show ('9' : Char).toNat = 57 from rfl,
    show ('a' : Char).toNat = 97 from rfl, show ('f' : Char).toNat = 102 from rfl,
    show ('A' : Char).toNat = 65 from rfl, show ('F' : Char).toNat = 70 from rfl] at h ⊢
  rw [e15, e7]
  split <;> split <;> first
    | omega
    | (split <;> omega)

theorem hexVal_lt_16 (c : Char) (h : isXdigitC c = true) : hexVal c < 16 := by
  unfold isXdigitC isDigitC at h
  unfold hexVal isDigitC
  simp only [Bool.or_eq_true, Bool.and_eq_true, decide_eq_true_eq, char_le_toNat,
    show ('0' : Char).toNat = 48 from rfl, show ('9' : Char).toNat = 57 from rfl,
    show ('a' : Char).toNat = 97 from rfl, show ('f' : Char).toNat = 102 from rfl,
    show ('A' : Char).toNat = 65 from rfl, show ('F' : Char).toNat = 70 from rfl] at h ⊢
  split <;> [omega; (split <;> omega)]

/-- OR-ing a value below `2 ^ k` into a `k`-shifted accumulator is exact
addition (the low `k` bits of the shifted accumulator are clear). -/
theorem lor_shift_add (k v d : Nat) (hd : d < 2 ^ k) :
    (v <<< k) ||| d = 2 ^ k * v + d := by
  apply Nat.eq_of_testBit_eq
  intro i
  rw [Nat.testBit_or, Nat.testBit_shiftLeft, Nat.testBit_mul_pow_two_add v hd i]
  by_cases h : i < k
  · have hk : ¬ k ≤ i := by omega
    simp [h, hk]
  · have hk : k ≤ i := by omega
    have hdi : d.testBit i = false :=
      Nat.testBit_lt_two_pow (lt_of_lt_of_le hd (Nat.pow_le_pow_right (by omega) hk))
    simp [h, hk, hdi]

/-- Folding a congruence-respecting step over a list respects congruence
modulo `M` of the accumulator. -/
theorem foldl_mod_congr (M : Nat) (f : Nat → Char → Nat)
    (hf : ∀ a b c, a ≡ b [MOD M] → f a c ≡ f b c [MOD M]) :
    ∀ ds : List Char, ∀ a b, a ≡ b [MOD M] →
      ds.foldl f a ≡ ds.foldl f b [MOD M] := by
  intro ds
  induction ds with
  | nil => intro a b h; simpa using h
  | cons c t ih => intro a b h; exact ih _ _ (hf a b c h)

/-- The hex accumulation loop computes the exact digit value reduced modulo
`2 ^ 64`, for any digit string and any in-range accumulator. -/
theorem parseHexLoop_exact (ds : List Char) : ∀ v, v < 2 ^ 64 →
    (∀ d ∈ ds, isXdigitC d = true) →
    parseHexLoop ds v = (ds.foldl (fun a c => 16 * a + hexVal c) v) % 2 ^ 64 := by
  induction ds with
  | nil =>
    intro v hv _
    simp only [parseHexLoop, List.foldl_nil]
    exact (Nat.mod_eq_of_lt hv).symm
  | cons c t ih =>
    intro v hv hall
    have hc := hall c (by simp)
    have hlt := hexVal_lt_16 c hc
    have hstep : (v <<< 4 ||| xdigitValC c) = 16 * v + hexVal c := by
      rw [xdigitValC_eq_hexVal c hc, lor_shift_add 4 v _ (by omega)]
      norm_num
    simp only [parseHexLoop, hc, if_true, List.foldl_cons]
    rw [hstep, ih _ (Nat.mod_lt _ (by norm_num)) (fun d hd => hall d (by simp [hd]))]
    exact foldl_mod_congr (2 ^ 64) _
      (fun a b ch h => (h.mul_left 16).add_right (hexVal ch)) t _ _
      (Nat.mod_modEq _ _)

/-- The binary accumulation loop computes the exact digit value reduced
modulo `2 ^ 64`. -/
theorem parseBinLoop_exact (bs : List Char) : ∀ v, v < 2 ^ 64 →
    (∀ b ∈ bs, b = '0' ∨ b = '1') →
    parseBinLoop bs v = (bs.foldl (fun a c => 2 * a + hexVal c) v) % 2 ^ 64 := by
  induction bs with
  | nil =>
    intro v hv _
    simp only [parseBinLoop, List.foldl_nil]
    exact (Nat.mod_eq_of_lt hv).symm
  | cons c t ih =>
    intro v hv hall
    have hc := hall c (by simp)
    have hcond : (c = '0' || c = '1') = true := by
      rcases hc with h | h <;> simp [h]
    have hstep : (v <<< 1 ||| (if c = '1' then 1 else 0)) = 2 * v + hexVal c := by
      have hd : (if c = '1' then 1 else 0) = hexVal c := by
        rcases hc with h | h <;> subst h <;> decide
      have hdlt : hexVal c < 2 ^ 1 := by
        rcases hc with h | h <;> subst h <;> decide
      rw [hd, lor_shift_add 1 v _ hdlt]
      norm_num
    simp only [parseBinLoop, hcond, if_true, List.foldl_cons]
    rw [hstep, ih _ (Nat.mod_lt _ (by norm_num)) (fun d hd => hall d (by simp [hd]))]
    exact foldl_mod_congr (2 ^ 64) _
      (fun a b ch h => (h.mul_left 2).add_right (hexVal ch)) t _ _
      (Nat.mod_modEq _ _)

/-- A non-digit character stops the hex loop: everything after it is
ignored. -/
theorem parseHexLoop_stop (rest : List Char) (c : Char)
    (hc : isXdigitC c = false) :
    ∀ ds v, (∀ d ∈ ds, isXdigitC d = true) →
      parseHexLoop (ds ++ c :: rest) v = parseHexLoop ds v := by
  intro ds
  induction ds with
  | nil => intro v _; simp [parseHexLoop, hc]
  | cons d t ih =>
    intro v h
    have hd := h d (by simp)
    simp only [List.cons_append, parseHexLoop, hd, if_true]
    exact ih _ (fun x hx => h x (by simp [hx]))

/-- A character other than `'0'`/`'1'` stops the binary loop. -/
theorem parseBinLoop_stop (rest : List Char) (c : Char)
    (hc : (c = '0' || c = '1') = false) :
    ∀ bs v, (∀ b ∈ bs, b = '0' ∨ b = '1') →
      parseBinLoop (bs ++ c :: rest) v = parseBinLoop bs v := by
  intro bs
  induction bs with
  | nil => intro v _; simp [parseBinLoop, hc]
  | cons d t ih =>
    intro v h
    have hd : (d = '0' || d = '1') = true := by
      rcases h d (by simp) with h0 | h0 <;> simp [h0]
    simp only [List.cons_append, parseBinLoop, hd, if_true]
    exact ih _ (fun x hx => h x (by simp [hx]))

/-! ## Claims C4-C7 -/

/-- C4: `libconfig_parse_integer` returns ok exactly when the modelled
C-style strtoll (base auto-detection: `0x`/`0X` means base 16, leading `0`
means base 8, else base 10) consumed the entire input and no range overflow
occurred; in every other case it returns value 0 and ok=false.  In
particular `"08"` fails (8 is not an octal digit, so it is left unconsumed)
while `"0x1A"` and `"10"` succeed. -/
theorem c4_parse_integer :
    (∀ s : List Char,
      ((libconfig_parse_integer s).2 = true ↔
        (strtoll0 s).consumed = s.length ∧ (strtoll0 s).erange = false)
      ∧ ((libconfig_parse_integer s).2 = false →
          (libconfig_parse_integer s).1 = 0))
    ∧ libconfig_parse_integer ("08".toList) = (0, false)
    ∧ libconfig_parse_integer ("0x1A".toList) = (26, true)
    ∧ libconfig_parse_integer ("10".toList) = (10, true) := by
  refine ⟨fun s => ?_, by decide, by decide, by decide⟩
  simp only [libconfig_parse_integer]
  by_cases h1 : (strtoll0 s).consumed = s.length <;>
    by_cases h2 : (strtoll0 s).erange <;> simp [h1, h2]

/-- Witness for C4 at the inputs "0x1A" (hypotheses of the iff direction
discharged concretely) and "08". -/
theorem c4_parse_integer_witness :
    ((strtoll0 ("0x1A".toList)).consumed = ("0x1A".toList).length
      ∧ (strtoll0 ("0x1A".toList)).erange = false)
    ∧ (libconfig_parse_integer ("0x1A".toList)).2 = true :=
  ⟨⟨by decide, by decide⟩,
    (c4_parse_integer.1 ("0x1A".toList)).1.mpr ⟨by decide, by decide⟩⟩

/-- C5: `libconfig_parse_hex64` returns 0 whenever the input does not begin
with `0x`/`0X` (in particular on `"1F"`), accumulates hexadecimal digits
after the marker (`"0x1F"` gives 31), and stops silently at the first
non-hex-digit character, ignoring everything after it. -/
theorem c5_parse_hex64 :
    (∀ s : List Char, begins0x s = false → libconfig_parse_hex64 s = 0)
    ∧ libconfig_parse_hex64 ("0x1F".toList) = 31
    ∧ libconfig_parse_hex64 ("1F".toList) = 0
    ∧ (∀ ds rest : List Char, ∀ c : Char, (∀ d ∈ ds, isXdigitC d = true) →
        isXdigitC c = false →
        libconfig_parse_hex64 ('0' :: 'x' :: (ds ++ c :: rest)) =
          libconfig_parse_hex64 ('0' :: 'x' :: ds)) := by
  refine ⟨?_, by decide, by decide, ?_⟩
  · intro s h
    unfold libconfig_parse_hex64
    split
    · rename_i c p
      simp only [begins0x] at h
      simp [h]
    · rfl
  · intro ds rest c hds hc
    simp only [libconfig_parse_hex64]
    norm_num
    exact parseHexLoop_stop rest c hc ds 0 hds

/-- Witness for C5: a prefix-free input and a stops-at-junk input. -/
theorem c5_parse_hex64_witness :
    (begins0x ("ff".toList) = false ∧ libconfig_parse_hex64 ("ff".toList) = 0)
    ∧ libconfig_parse_hex64 ('0' :: 'x' :: (['1', 'F'] ++ 'g' :: ['9'])) =
        libconfig_parse_hex64 ('0' :: 'x' :: ['1', 'F']) :=
  ⟨⟨by decide, c5_parse_hex64.1 _ (by decide)⟩,
    c5_parse_hex64.2.2.2 ['1', 'F'] ['9'] 'g' (by decide) (by decide)⟩

/-- C6: `libconfig_parse_bin64` returns 0 whenever the input does not begin
with `0b`/`0B`, accumulates one bit per `'0'`/`'1'` after the marker
(`"0b101"` gives 5), and stops silently at the first other character. -/
theorem c6_parse_bin64 :
    (∀ s : List Char, begins0b s = false → libconfig_parse_bin64 s = 0)
    ∧ libconfig_parse_bin64 ("0b101".toList) = 5
    ∧ (∀ bs rest : List Char, ∀ c : Char, (∀ b ∈ bs, b = '0' ∨ b = '1') →
        (c = '0' || c = '1') = false →
        libconfig_parse_bin64 ('0' :: 'b' :: (bs ++ c :: rest)) =
          libconfig_parse_bin64 ('0' :: 'b' :: bs)) := by
  refine ⟨?_, by decide, ?_⟩
  · intro s h
    unfold libconfig_parse_bin64
    split
    · rename_i c p
      simp only [begins0b] at h
      simp [h]
    · rfl
  · intro bs rest c hbs hc
    simp only [libconfig_parse_bin64]
    norm_num
    exact parseBinLoop_stop rest c hc bs 0 hbs

/-- Witness for C6: a prefix-free input and a stops-at-junk input. -/
theorem c6_parse_bin64_witness :
    (begins0b ("101".toList) = false ∧ libconfig_parse_bin64 ("101".toList) = 0)
    ∧ libconfig_parse_bin64 ('0' :: 'b' :: (['1', '0', '1'] ++ '2' :: ['1'])) =
        libconfig_parse_bin64 ('0' :: 'b' :: ['1', '0', '1']) :=
  ⟨⟨by decide, c6_parse_bin64.1 _ (by decide)⟩,
    c6_parse_bin64.2.2 ['1', '0', '1'] ['1'] '2' (by decide) (by decide)⟩

/-- C7: for every digit string after the marker (in particular those whose
value exceeds the unsigned 64-bit range), `libconfig_parse_hex64` and
`libconfig_parse_bin64` signal no error and return the exact value of the
consumed digits reduced modulo `2 ^ 64`. -/
theorem c7_wrap_mod :
    (∀ ds : List Char, (∀ d ∈ ds, isXdigitC d = true) →
      libconfig_parse_hex64 ('0' :: 'x' :: ds) = foldDigits 16 ds % 2 ^ 64)
    ∧ (∀ bs : List Char, (∀ b ∈ bs, b = '0' ∨ b = '1') →
      libconfig_parse_bin64 ('0' :: 'b' :: bs) = foldDigits 2 bs % 2 ^ 64) := by
  constructor
  · intro ds h
    simp only [libconfig_parse_hex64, foldDigits]
    norm_num
    exact parseHexLoop_exact ds 0 (by norm_num) h
  · intro bs h
    simp only [libconfig_parse_bin64, foldDigits]
    norm_num
    exact parseBinLoop_exact bs 0 (by norm_num) h

/-- Witness for C7: the 17-hex-digit string for `2 ^ 64` wraps to 0, and a
65-bit binary string wraps likewise. -/
theorem c7_wrap_mod_witness :
    ((∀ d ∈ ("10000000000000000".toList), isXdigitC d = true)
      ∧ libconfig_parse_hex64 ('0' :: 'x' :: "10000000000000000".toList) =
          foldDigits 16 ("10000000000000000".toList) % 2 ^ 64)
    ∧ libconfig_parse_hex64 ('0' :: 'x' :: "10000000000000000".toList) = 0 :=
  ⟨⟨by decide, c7_wrap_mod.1 _ (by decide)⟩, by decide⟩

/-! ## Claim C8 -/

/-- The strip loop never changes any character at or before position
`pIdx + 1`: the backward scan stops before reaching the digit that
immediately follows the decimal point. -/
theorem stripLoop_getElem_le :
    ∀ q buf pIdx i, i ≤ pIdx + 1 → (stripLoop buf pIdx q)[i]? = buf[i]? := by
  intro q
  induction q with
  | zero => intro buf pIdx i _; rfl
  | succ q ih =>
    intro buf pIdx i h
    simp only [stripLoop]
    split
    · rename_i hgt
      split
      · rw [ih _ _ _ h]
        exact List.getElem?_take_of_lt (by omega)
      · rfl
    · rfl

/-- C8: the post-processing of `libconfig_format_double` leaves any rendered
text containing an exponent marker untouched; on every rendered text the
output contains a decimal point or an exponent marker; the character just
after the decimal point is never stripped; and the spec examples
`formatDouble(1.0, 2, false) = "1.0"`,
`formatDouble(100.0, 2, false) = "100.0"` hold. -/
theorem c8_format_double :
    (∀ buf : List Char, buf.contains 'e' = true →
      libconfig_format_double_post buf = buf)
    ∧ (∀ buf : List Char,
        (libconfig_format_double_post buf).contains '.' = true
        ∨ (libconfig_format_double_post buf).contains 'e' = true)
    ∧ (∀ buf : List Char,
        (libconfig_format_double_post buf)[buf.indexOf '.' + 1]? = buf[buf.indexOf '.' + 1]?
        ∨ libconfig_format_double_post buf = buf
        ∨ libconfig_format_double_post buf = buf ++ ['.', '0'])
    ∧ libconfig_format_double_fixed 1 2 = "1.0".toList
    ∧ libconfig_format_double_fixed 100 2 = "100.0".toList := by
  refine ⟨?_, ?_, ?_, by decide, by decide⟩
  · intro buf he
    simp only [List.contains, List.elem_eq_mem, decide_eq_true_eq] at he
    simp [libconfig_format_double_post, he]
  · intro buf
    by_cases he : 'e' ∈ buf
    · right
      simp [libconfig_format_double_post, List.contains, he]
    · left
      by_cases hp : '.' ∈ buf
      · have hidx : buf[buf.indexOf '.']? = some '.' := List.getElem?_indexOf hp
        have hkeep :
            (stripLoop buf (buf.indexOf '.') (buf.length - 1))[buf.indexOf '.']? =
              some '.' := by
          rw [stripLoop_getElem_le _ _ _ _ (by omega)]
          exact hidx
        have hmem : '.' ∈ stripLoop buf (buf.indexOf '.') (buf.length - 1) :=
          List.getElem?_mem hkeep
        simp [libconfig_format_double_post, List.contains, he, hp, hmem]
      · simp [libconfig_format_double_post, List.contains, he, hp]
  · intro buf
    by_cases he : 'e' ∈ buf
    · right; left
      simp [libconfig_format_double_post, List.contains, he]
    · by_cases hp : '.' ∈ buf
      · left
        simp only [libconfig_format_double_post, List.contains, List.elem_eq_mem,
          he, hp, decide_eq_true_eq, Bool.false_eq_true, if_false, if_true,
          decide_False, decide_True]
        exact stripLoop_getElem_le _ _ _ _ (by omega)
      · right; right
        simp [libconfig_format_double_post, List.contains, he, hp]

/-- Witness for C8: the universal parts applied to the concrete rendered
text "1.00". -/
theorem c8_format_double_witness :
    (("1e+10".toList.contains 'e' = true)
      ∧ libconfig_format_double_post ("1e+10".toList) = "1e+10".toList)
    ∧ ((libconfig_format_double_post ("1.00".toList)).contains '.' = true
        ∨ (libconfig_format_double_post ("1.00".toList)).contains 'e' = true) :=
  ⟨⟨by decide, c8_format_double.1 ("1e+10".toList) (by decide)⟩,
    c8_format_double.2.1 ("1.00".toList)⟩

/-! ## Claim C9 -/

theorem and_two_pow_eq_zero (u r : Nat) :
    (u &&& 2 ^ r = 0) ↔ u.testBit r = false := by
  rw [Nat.and_two_pow]
  have h2 := Nat.two_pow_pos r
  cases h : u.testBit r
  · simp
  · simp only [Bool.toNat_true, one_mul]
    constructor
    · intro h0; omega
    · intro h0; cases h0

/-- A value between `2 ^ r` and `2 ^ (r + 1)` has its top bit set. -/
theorem testBit_top (u r : Nat) (h1 : 2 ^ r ≤ u) (h2 : u < 2 ^ (r + 1)) :
    u.testBit r = true := by
  rw [Nat.testBit_to_div_mod]
  have hpos := Nat.two_pow_pos r
  have hdiv : u / 2 ^ r = 1 := by
    have hlt : u / 2 ^ r < 2 := by
      apply Nat.div_lt_of_lt_mul
      rw [Nat.pow_succ] at h2
      omega
    have hge : 1 ≤ u / 2 ^ r := (Nat.one_le_div_iff hpos).mpr h1
    omega
  simp [hdiv]

/-- The portable `clzl` loop computes `r` minus the bit length, for values
below `2 ^ r`. -/
theorem clzLoop_eq (v : Nat) : ∀ r, v < 2 ^ r → clzLoop v r = r - v.size := by
  intro r
  induction r with
  | zero => intro _; simp [clzLoop]
  | succ r ih =>
    intro h
    simp only [clzLoop]
    by_cases hb : v &&& 2 ^ r = 0
    · have hbit : v.testBit r = false := (and_two_pow_eq_zero v r).mp hb
      have hlt : v < 2 ^ r := by
        by_contra hge
        push_neg at hge
        rw [testBit_top v r hge h] at hbit
        cases hbit
      have hsz : v.size ≤ r := Nat.size_le.mpr hlt
      rw [if_pos hb, ih hlt]
      omega
    · have hbit : v.testBit r = true := by
        cases hb2 : v.testBit r
        · exact absurd ((and_two_pow_eq_zero v r).mpr hb2) hb
        · rfl
      have hge : 2 ^ r ≤ v := Nat.testBit_implies_ge hbit
      have hsz : v.size = r + 1 := by
        have hs1 : v.size ≤ r + 1 := Nat.size_le.mpr h
        have hs2 : r < v.size := Nat.lt_size.mpr hge
        omega
      rw [if_neg hb, hsz]
      omega

/-- The emission loop produces the bits below position `r`, most-significant
first, truncated to `cap - i` characters. -/
theorem formatBinLoop_eq (u cap : Nat) :
    ∀ r i, formatBinLoop u cap r i = (bitsMSB u r).take (cap - i) := by
  intro r
  induction r with
  | zero => intro i; simp [formatBinLoop, bitsMSB]
  | succ r ih =>
    intro i
    simp only [formatBinLoop, bitsMSB]
    by_cases hi : i < cap
    · rw [if_pos hi, ih (i + 1)]
      have hc : cap - i = (cap - (i + 1)) + 1 := by omega
      rw [hc, List.take_succ_cons]
    · rw [if_neg hi]
      have hc : cap - i = 0 := by omega
      rw [hc, List.take_zero]

/-- Folding the binary-value step over `bitsMSB u m` starting from `a` gives
`a * 2 ^ m + u % 2 ^ m`. -/
theorem binVal_fold (u : Nat) :
    ∀ m a, (bitsMSB u m).foldl (fun a c => 2 * a + (if c = '1' then 1 else 0)) a
      = a * 2 ^ m + u % 2 ^ m := by
  intro m
  induction m with
  | zero => intro a; simp [bitsMSB, Nat.mod_one]
  | succ m ih =>
    intro a
    simp only [bitsMSB, List.foldl_cons]
    rw [ih]
    have hmod : u % 2 ^ (m + 1) = u % 2 ^ m + 2 ^ m * (u / 2 ^ m % 2) := by
      rw [Nat.pow_succ, Nat.mod_mul]
    by_cases hb : u &&& 2 ^ m = 0
    · have hbit : u.testBit m = false := (and_two_pow_eq_zero u m).mp hb
      have hdm : u / 2 ^ m % 2 = 0 := by
        rw [Nat.testBit_to_div_mod] at hbit
        simp only [decide_eq_false_iff_not] at hbit
        omega
      rw [if_pos hb, hmod, hdm]
      simp [Nat.pow_succ]
      ring
    · have hbit : u.testBit m = true := by
        cases hb2 : u.testBit m
        · exact absurd ((and_two_pow_eq_zero u m).mpr hb2) hb
        · rfl
      have hdm : u / 2 ^ m % 2 = 1 := by
        rw [Nat.testBit_to_div_mod] at hbit
        simpa using hbit
      rw [if_neg hb, hmod, hdm]
      simp [Nat.pow_succ]
      ring

theorem bitsMSB_length (u : Nat) : ∀ m, (bitsMSB u m).length = m := by
  intro m
  induction m with
  | zero => rfl
  | succ m ih => simp [bitsMSB, ih]

/-- For a nonzero value, the bit string of its full bit length starts
with `'1'` (no leading zero). -/
theorem bitsMSB_size_head (u : Nat) (hu : u ≠ 0) :
    (bitsMSB u u.size).head? = some '1' := by
  have hpos : 0 < u.size := Nat.size_pos.mpr (Nat.pos_of_ne_zero hu)
  obtain ⟨m, hm⟩ : ∃ m, u.size = m + 1 := ⟨u.size - 1, by omega⟩
  rw [hm]
  have h1 : 2 ^ m ≤ u := Nat.lt_size.mp (by omega)
  have h2 : u < 2 ^ (m + 1) := hm ▸ Nat.lt_size_self u
  have hbit := testBit_top u m h1 h2
  have hne : ¬(u &&& 2 ^ m = 0) := by
    rw [and_two_pow_eq_zero, hbit]
    simp
  simp [bitsMSB, hne]

/-- The full-length bit string denotes the value itself. -/
theorem binValC_bitsMSB_size (u : Nat) : binValC (bitsMSB u u.size) = u := by
  unfold binValC
  rw [binVal_fold u u.size 0]
  simp [Nat.mod_eq_of_lt (Nat.lt_size_self u)]

/-- C9: for a nonzero 64-bit signed value and a buffer of capacity at least
2, `libconfig_format_bin` emits the two's-complement bits most-significant
first starting after the leading zeros — that is, the minimal binary
representation of the 64-bit pattern (first character `'1'`, value equal to
the pattern, length equal to the bit length) — truncated silently to
`bufferCapacity - 1` characters. -/
theorem c9_format_bin (v : Int) (buflen : Nat)
    (hlo : -(2 ^ 63) ≤ v) (hhi : v < 2 ^ 63) (hv : v ≠ 0) (_hb : 2 ≤ buflen) :
    libconfig_format_bin v buflen =
      (bitsMSB (v % 2 ^ 64).toNat (v % 2 ^ 64).toNat.size).take (buflen - 1)
    ∧ (bitsMSB (v % 2 ^ 64).toNat (v % 2 ^ 64).toNat.size).head? = some '1'
    ∧ binValC (bitsMSB (v % 2 ^ 64).toNat (v % 2 ^ 64).toNat.size) =
        (v % 2 ^ 64).toNat
    ∧ (bitsMSB (v % 2 ^ 64).toNat (v % 2 ^ 64).toNat.size).length =
        (v % 2 ^ 64).toNat.size := by
  have hur : v % 2 ^ 64 = ((v % 2 ^ 64).toNat : Int) :=
    (Int.toNat_of_nonneg (Int.emod_nonneg v (by norm_num))).symm
  have hu64 : (v % 2 ^ 64).toNat < 2 ^ 64 := by
    have hlt : v % 2 ^ 64 < 2 ^ 64 :=
      Int.emod_lt_of_pos v (by norm_num)
    rw [hur] at hlt
    exact_mod_cast hlt
  have hu0 : (v % 2 ^ 64).toNat ≠ 0 := by
    intro h0
    rw [h0] at hur
    simp only [Nat.cast_zero] at hur
    omega
  refine ⟨?_, bitsMSB_size_head _ hu0, binValC_bitsMSB_size _, bitsMSB_length _ _⟩
  unfold libconfig_format_bin
  rw [formatBinLoop_eq]
  have hsz : (v % 2 ^ 64).toNat.size ≤ 64 := Nat.size_le.mpr hu64
  have hclz : clzl ((v % 2 ^ 64).toNat) = 64 - (v % 2 ^ 64).toNat.size := by
    unfold clzl
    exact clzLoop_eq _ 64 hu64
  rw [hclz, Nat.sub_zero]
  congr 2
  omega

/-- Witness for C9 at `v = 5`, `buflen = 10`: the hypotheses hold, the
emitted text is "101", and it matches the truncated minimal representation
given by the theorem. -/
theorem c9_format_bin_witness :
    ((-(2 ^ 63) : Int) ≤ 5 ∧ (5 : Int) < 2 ^ 63 ∧ (5 : Int) ≠ 0 ∧ 2 ≤ 10
      ∧ libconfig_format_bin 5 10 = ['1', '0', '1'])
    ∧ libconfig_format_bin 5 10 =
        (bitsMSB ((5 : Int) % 2 ^ 64).toNat ((5 : Int) % 2 ^ 64).toNat.size).take
          (10 - 1) :=
  ⟨⟨by decide, by decide, by decide, by decide, by decide⟩,
    (c9_format_bin 5 10 (by decide) (by decide) (by decide) (by decide)).1⟩

/-! ## Setting tree data model (src/contrib/copy_setting.c)

The tree container (libconfig.c) is not among the sources; its node model
and operations are modelled from the spec (sections 3 and 6). -/

/-- Setting types, as in the libconfig `CONFIG_TYPE_*` enumeration. -/
inductive CfgType where
  | tNone
  | tGroup
  | tInt
  | tInt64
  | tFloat
  | tString
  | tBool
  | tArray
  | tList
deriving DecidableEq

/-- Display format flag (`CONFIG_FORMAT_DEFAULT` / `CONFIG_FORMAT_HEX`). -/
inductive CfgFormat where
  | fDefault
  | fHex
deriving DecidableEq

/-- Modelled from the spec: the scalar payload of a setting (section 3).
The double payload is represented by its 64-bit pattern, since the copier
only moves it between nodes and never computes with it. -/
inductive CfgValue where
  | vNone
  | vInt (i : Int)
  | vInt64 (i : Int)
  | vFloat (bits : Nat)
  | vString (s : String)
  | vBool (b : Bool)
deriving DecidableEq

/-- Modelled from the spec: a setting node (section 3): optional name, type,
format flag, scalar payload, ordered children.  The `parent` back-reference
is a non-owning pointer resolved by context and is not part of the value. -/
inductive Setting where
  | mk (name : Option String) (ty : CfgType) (fmt : CfgFormat)
       (val : CfgValue) (children : List Setting)

def Setting.name : Setting → Option String
  | .mk n _ _ _ _ => n

def Setting.ty : Setting → CfgType
  | .mk _ t _ _ _ => t

def Setting.fmt : Setting → CfgFormat
  | .mk _ _ f _ _ => f

def Setting.val : Setting → CfgValue
  | .mk _ _ _ v _ => v

def Setting.children : Setting → List Setting
  | .mk _ _ _ _ cs => cs

/-- `config_setting_is_group`. -/
def config_setting_is_group (s : Setting) : Bool := s.ty = CfgType.tGroup

/-- `config_setting_is_list`. -/
def config_setting_is_list (s : Setting) : Bool := s.ty = CfgType.tList

/-- `config_setting_is_array`. -/
def config_setting_is_array (s : Setting) : Bool := s.ty = CfgType.tArray

/-- `config_setting_is_aggregate`. -/
def config_setting_is_aggregate (s : Setting) : Bool :=
  s.ty = CfgType.tGroup || s.ty = CfgType.tArray || s.ty = CfgType.tList

/-- Modelled from the spec: typed getters (section 6) read the payload of a
node of the matching type (and a zero default otherwise). -/
def config_setting_get_int (s : Setting) : Int :=
  match s.val with
  | .vInt i => i
  | _ => 0

def config_setting_get_int64 (s : Setting) : Int :=
  match s.val with
  | .vInt64 i => i
  | _ => 0

def config_setting_get_float (s : Setting) : Nat :=
  match s.val with
  | .vFloat b => b
  | _ => 0

def config_setting_get_string (s : Setting) : String :=
  match s.val with
  | .vString t => t
  | _ => ""

def config_setting_get_bool (s : Setting) : Bool :=
  match s.val with
  | .vBool b => b
  | _ => false

/-- Modelled from the spec: the payload of a freshly created node of the
given type (zero-initialised, section 3 lifecycle). -/
def freshValue : CfgType → CfgValue
  | .tInt => .vInt 0
  | .tInt64 => .vInt64 0
  | .tFloat => .vFloat 0
  | .tString => .vString ""
  | .tBool => .vBool false
  | _ => .vNone

/-- Modelled from the spec: `config_setting_add` keeps the requested name
only under a `Group` parent; under a positional (`List`/`Array`) parent the
new child is unnamed (section 4.2). -/
def addedName (parentIsGroup : Bool) (n : Option String) : Option String :=
  if parentIsGroup then n else none

/-- Appending a new child to a destination parent (the mutation performed by
`config_setting_add` and the `config_setting_set_*_elem(parent, -1, v)`
calls, which the spec assumes to succeed below the top level). -/
def appendChild (p : Setting) (c : Setting) : Setting :=
  .mk p.name p.ty p.fmt p.val (p.children ++ [c])

def appendChildOpt (p : Setting) : Option Setting → Setting
  | some c => appendChild p c
  | none => p

/-- The scalar clone built by the setter chain of `config_setting_copy_simple`
(src/contrib/copy_setting.c lines 41-60): a fresh node from
`config_setting_add(parent, name(src), type(src))`, whose payload is then
set by the matching typed setter, and whose format flag is copied only for
the two integer types. -/
def copiedScalar (keepName : Bool) (src : Setting) : Setting :=
  let set0 := Setting.mk (addedName keepName src.name) src.ty
    CfgFormat.fDefault (freshValue src.ty) []
  if src.ty = CfgType.tInt then
    Setting.mk set0.name set0.ty src.fmt (.vInt (config_setting_get_int src)) []
  else if src.ty = CfgType.tInt64 then
    Setting.mk set0.name set0.ty src.fmt (.vInt64 (config_setting_get_int64 src)) []
  else if src.ty = CfgType.tFloat then
    Setting.mk set0.name set0.ty set0.fmt (.vFloat (config_setting_get_float src)) []
  else if src.ty = CfgType.tString then
    Setting.mk set0.name set0.ty set0.fmt (.vString (config_setting_get_string src)) []
  else if src.ty = CfgType.tBool then
    Setting.mk set0.name set0.ty set0.fmt (.vBool (config_setting_get_bool src)) []
  else set0

theorem Setting.sizeOf_children_lt (s : Setting) : sizeOf s.children < sizeOf s := by
  cases s with
  | mk n t f v cs => simp [Setting.children]

mutual

/-- Embedding of `config_setting_copy_simple` (src/contrib/copy_setting.c,
lines 33-62): aggregates are delegated to `config_setting_copy_aggregate`;
a scalar is added by name (`config_setting_add`) and its payload and — for
integer types — format flag are copied.  The mutated destination parent is
returned. -/
def config_setting_copy_simple (parent : Setting) (src : Setting) : Setting :=
  if config_setting_is_aggregate src then
    config_setting_copy_aggregate parent src
  else
    appendChild parent (copiedScalar (config_setting_is_group parent) src)
termination_by 4 * sizeOf src + 3
decreasing_by all_goals simp_wf

/-- Embedding of `config_setting_copy_elem` (src/contrib/copy_setting.c,
lines 64-87): aggregates are delegated to `config_setting_copy_aggregate`;
a scalar of one of the five value types is appended positionally via
`config_setting_set_<type>_elem(parent, -1, v)` (an unnamed element), with
the format flag copied for the two integer types; a scalar of any other
type is skipped (`set` stays NULL, nothing is appended). -/
def config_setting_copy_elem (parent : Setting) (src : Setting) : Setting :=
  if config_setting_is_aggregate src then
    config_setting_copy_aggregate parent src
  else if src.ty = CfgType.tInt then
    appendChild parent
      (Setting.mk none CfgType.tInt src.fmt (.vInt (config_setting_get_int src)) [])
  else if src.ty = CfgType.tInt64 then
    appendChild parent
      (Setting.mk none CfgType.tInt64 src.fmt (.vInt64 (config_setting_get_int64 src)) [])
  else if src.ty = CfgType.tFloat then
    appendChild parent
      (Setting.mk none CfgType.tFloat CfgFormat.fDefault
        (.vFloat (config_setting_get_float src)) [])
  else if src.ty = CfgType.tString then
    appendChild parent
      (Setting.mk none CfgType.tString CfgFormat.fDefault
        (.vString (config_setting_get_string src)) [])
  else if src.ty = CfgType.tBool then
    appendChild parent
      (Setting.mk none CfgType.tBool CfgFormat.fDefault
        (.vBool (config_setting_get_bool src)) [])
  else parent
termination_by 4 * sizeOf src + 3
decreasing_by all_goals simp_wf

/-- The `for(i = 0; i < n; i++)` loop of `config_setting_copy_aggregate`
(src/contrib/copy_setting.c lines 97-107): each source child is copied into
the freshly created aggregate, by name when the source is a `Group` and
positionally otherwise. -/
def config_setting_copy_agg_loop (srcIsGroup : Bool) (agg : Setting) :
    List Setting → Setting
  | [] => agg
  | c :: rest =>
    config_setting_copy_agg_loop srcIsGroup
      (if srcIsGroup then config_setting_copy_simple agg c
       else config_setting_copy_elem agg c) rest
termination_by cs => 4 * sizeOf cs + 3
decreasing_by all_goals simp_wf
              all_goals omega

/-- Embedding of `config_setting_copy_aggregate` (src/contrib/copy_setting.c,
lines 89-108): creates a fresh aggregate child (named under a `Group`
destination, unnamed under a positional one) and fills it child by child,
dispatching on the kind of the source. -/
def config_setting_copy_aggregate (parent : Setting) (src : Setting) : Setting :=
  appendChild parent
    (config_setting_copy_agg_loop (config_setting_is_group src)
      (Setting.mk (addedName (config_setting_is_group parent) src.name) src.ty
        CfgFormat.fDefault (freshValue src.ty) [])
      src.children)
termination_by 4 * sizeOf src + 2
decreasing_by
  simp_wf
  have h := Setting.sizeOf_children_lt src
  omega

end

/-- Embedding of `config_setting_copy` (src/contrib/copy_setting.c, lines
110-126): rejects a destination parent that is neither a `Group` nor a
`List`, leaving it untouched, and otherwise dispatches on the source kind
and reports success.  The pair is (returned flag, destination parent after
the call). -/
def config_setting_copy (parent : Setting) (src : Setting) : Bool × Setting :=
  if !config_setting_is_group parent && !config_setting_is_list parent then
    (false, parent)
  else if config_setting_is_aggregate src then
    (true, config_setting_copy_aggregate parent src)
  else
    (true, config_setting_copy_simple parent src)

/-! ## Specification-side clone function and well-formedness -/

/-- The two scalar insertion paths of the copier: named insertion
(`copySimple`, via `config_setting_add`) and positional append
(`copyAsElement`, via `config_setting_set_*_elem`). -/
inductive CloneMode where
  | simple
  | elem
deriving DecidableEq

mutual

/-- The subtree a copy call appends to its destination parent, described
directly: `none` when nothing is appended (a scalar of unhandled type on
the positional path).  For an aggregate source the clone's root keeps the
source name exactly when `keep` is true, and the children are produced by
the named path when the source is a `Group` and by the positional path
when it is an `Array` or `List`. -/
def clonePure (mode : CloneMode) (keep : Bool) (s : Setting) : Option Setting :=
  if config_setting_is_aggregate s then
    some (Setting.mk (if keep then s.name else none) s.ty CfgFormat.fDefault
      (freshValue s.ty) (cloneChildren (config_setting_is_group s) s.children))
  else
    match mode with
    | .simple => some (copiedScalar keep s)
    | .elem =>
      if s.ty = CfgType.tInt || s.ty = CfgType.tInt64 || s.ty = CfgType.tFloat
          || s.ty = CfgType.tString || s.ty = CfgType.tBool then
        some (copiedScalar false s)
      else none
termination_by 2 * sizeOf s + 1
decreasing_by
  simp_wf
  have h := Setting.sizeOf_children_lt s
  omega

/-- Clones of an aggregate's children, in order. -/
def cloneChildren (srcIsGroup : Bool) : List Setting → List Setting
  | [] => []
  | c :: rest =>
    match clonePure (if srcIsGroup then .simple else .elem) srcIsGroup c with
    | some d => d :: cloneChildren srcIsGroup rest
    | none => cloneChildren srcIsGroup rest
termination_by cs => 2 * sizeOf cs + 2
decreasing_by all_goals simp_wf
              all_goals omega

end

/-- Does the payload match the scalar type? -/
def valMatches : CfgType → CfgValue → Bool
  | .tInt, .vInt _ => true
  | .tInt64, .vInt64 _ => true
  | .tFloat, .vFloat _ => true
  | .tString, .vString _ => true
  | .tBool, .vBool _ => true
  | _, _ => false

mutual

/-- The spec's data-model invariants (section 3), as far as the copier's
behaviour depends on them: an aggregate node has no payload and a default
format flag; a scalar node has one of the five value types with a matching
payload, no children, and a `Hex` flag only on the integer types; children
of `Array`/`List` nodes are unnamed. -/
def settingWF (s : Setting) : Bool :=
  if config_setting_is_aggregate s then
    s.val = CfgValue.vNone && s.fmt = CfgFormat.fDefault
      && childrenWF s.ty s.children
  else
    (s.ty = CfgType.tInt || s.ty = CfgType.tInt64 || s.ty = CfgType.tFloat
      || s.ty = CfgType.tString || s.ty = CfgType.tBool)
    && valMatches s.ty s.val
    && (s.fmt = CfgFormat.fDefault || s.ty = CfgType.tInt
        || s.ty = CfgType.tInt64)
    && s.children.isEmpty
termination_by 2 * sizeOf s + 1
decreasing_by
  simp_wf
  have h := Setting.sizeOf_children_lt s
  omega

def childrenWF (pt : CfgType) : List Setting → Bool
  | [] => true
  | c :: rest =>
    (if pt = CfgType.tGroup then true else c.name = none)
      && settingWF c && childrenWF pt rest
termination_by cs => 2 * sizeOf cs + 2
decreasing_by all_goals simp_wf
              all_goals omega

end

/-- Replace the root name of a setting. -/
def withRootName (n : Option String) (s : Setting) : Setting :=
  Setting.mk n s.ty s.fmt s.val s.children

theorem withRootName_self (s : Setting) : withRootName s.name s = s := by
  cases s
  rfl

/-- Strong induction on the size of a setting. -/
theorem Setting.strongInd (motive : Setting → Prop)
    (step : ∀ s : Setting,
      (∀ c : Setting, sizeOf c < sizeOf s → motive c) → motive s) :
    ∀ s, motive s := by
  have h : ∀ n : Nat, ∀ t : Setting, sizeOf t ≤ n → motive t := by
    intro n
    induction n with
    | zero =>
      intro t ht
      exact step t
        (fun c hc => absurd (Nat.lt_of_lt_of_le hc ht) (Nat.not_lt_zero _))
    | succ n ihn =>
      intro t ht
      exact step t (fun c hc => ihn c (by omega))
  exact fun s => h (sizeOf s) s (Nat.le_refl _)

theorem sizeOf_lt_of_mem_children {c s : Setting} (h : c ∈ s.children) :
    sizeOf c < sizeOf s := by
  have h1 : sizeOf c < sizeOf s.children := List.sizeOf_lt_of_mem h
  have h2 := Setting.sizeOf_children_lt s
  omega

/-! ## The copy functions compute the clone -/

theorem appendChildOpt_eq (p : Setting) (o : Option Setting) :
    appendChildOpt p o = Setting.mk p.name p.ty p.fmt p.val
      (p.children ++ o.toList) := by
  cases o with
  | none =>
    cases p
    simp [appendChildOpt, Setting.name, Setting.ty, Setting.fmt, Setting.val,
      Setting.children]
  | some d => rfl

theorem appendChildOpt_is_group (p : Setting) (o : Option Setting) :
    config_setting_is_group (appendChildOpt p o) = config_setting_is_group p := by
  rw [appendChildOpt_eq]
  simp [config_setting_is_group, Setting.ty]

theorem cloneChildren_cons (b : Bool) (c : Setting) (rest : List Setting) :
    cloneChildren b (c :: rest) =
      (clonePure (if b then .simple else .elem) b c).toList
        ++ cloneChildren b rest := by
  rcases ho : clonePure (if b then .simple else .elem) b c with _ | d <;>
    simp [cloneChildren, ho]

/-- The child loop of `config_setting_copy_aggregate` appends exactly the
clones of the source children, provided each child's copy behaves as its
clone (supplied by the outer induction). -/
theorem agg_loop_eq (b : Bool) :
    ∀ cs : List Setting, ∀ agg : Setting,
      config_setting_is_group agg = b →
      (∀ c ∈ cs, ∀ p : Setting,
        config_setting_copy_simple p c =
          appendChildOpt p (clonePure .simple (config_setting_is_group p) c)
        ∧ config_setting_copy_elem p c =
          appendChildOpt p (clonePure .elem (config_setting_is_group p) c)) →
      config_setting_copy_agg_loop b agg cs =
        Setting.mk agg.name agg.ty agg.fmt agg.val
          (agg.children ++ cloneChildren b cs) := by
  intro cs
  induction cs with
  | nil =>
    intro agg _ _
    simp only [config_setting_copy_agg_loop, cloneChildren, List.append_nil]
    cases agg
    rfl
  | cons c rest ih =>
    intro agg hb hall
    have hc := hall c (List.mem_cons_self c rest)
    have hstep :
        (if b then config_setting_copy_simple agg c
         else config_setting_copy_elem agg c) =
          appendChildOpt agg (clonePure (if b then .simple else .elem) b c) := by
      cases b
      · have h2 := (hc agg).2
        rw [hb] at h2
        simpa using h2
      · have h2 := (hc agg).1
        rw [hb] at h2
        simpa using h2
    rw [config_setting_copy_agg_loop, hstep,
      ih _ (by rw [appendChildOpt_is_group, hb])
        (fun x hx => hall x (List.mem_cons_of_mem _ hx))]
    rw [appendChildOpt_eq, cloneChildren_cons]
    simp [Setting.name, Setting.ty, Setting.fmt, Setting.val, Setting.children]

/-- Master lemma: each copy helper appends to its destination parent exactly
the clone of the source, the name being kept only under a `Group` parent. -/
theorem copy_eq_clone : ∀ s : Setting, ∀ p : Setting,
    config_setting_copy_simple p s =
      appendChildOpt p (clonePure .simple (config_setting_is_group p) s)
    ∧ config_setting_copy_elem p s =
      appendChildOpt p (clonePure .elem (config_setting_is_group p) s) := by
  intro s
  induction s using Setting.strongInd with
  | step s ih =>
    intro p
    by_cases hagg : config_setting_is_aggregate s = true
    · have hloop : config_setting_copy_aggregate p s =
          appendChildOpt p (clonePure .simple (config_setting_is_group p) s) := by
        rw [config_setting_copy_aggregate,
          agg_loop_eq (config_setting_is_group s) s.children _
            (by simp [config_setting_is_group, Setting.ty])
            (fun c hc p2 => ih c (sizeOf_lt_of_mem_children hc) p2)]
        simp [clonePure, hagg, appendChildOpt, appendChild, addedName,
          Setting.name, Setting.ty, Setting.fmt, Setting.val, Setting.children]
      constructor
      · rw [config_setting_copy_simple]
        simp only [hagg, if_true]
        exact hloop
      · rw [config_setting_copy_elem]
        simp only [hagg, if_true]
        rw [hloop]
        simp [clonePure, hagg]
    · obtain ⟨n, t, f, v, cs⟩ := s
      constructor
      · rw [config_setting_copy_simple]
        simp only [hagg, Bool.false_eq_true, if_false]
        simp [clonePure, hagg, appendChildOpt]
      · rw [config_setting_copy_elem]
        simp only [hagg, Bool.false_eq_true, if_false]
        clear ih
        cases t <;>
          first
          | (exfalso; revert hagg
             simp [config_setting_is_aggregate, Setting.ty]
             done)
          | (clear hagg
             simp [clonePure, appendChildOpt, copiedScalar, addedName,
               Setting.name, Setting.ty, Setting.fmt, Setting.val,
               Setting.children, freshValue, config_setting_is_aggregate])

/-! ## On well-formed sources the clone is the source itself -/

theorem childrenWF_forall (pt : CfgType) :
    ∀ cs : List Setting, childrenWF pt cs = true →
      ∀ c ∈ cs, settingWF c = true ∧ (pt = CfgType.tGroup ∨ c.name = none) := by
  intro cs
  induction cs with
  | nil => intro _ c hc; cases hc
  | cons d rest ih =>
    intro h c hc
    rw [childrenWF] at h
    simp only [Bool.and_eq_true] at h
    obtain ⟨⟨hn, hw⟩, hr⟩ := h
    rcases List.mem_cons.mp hc with rfl | hc2
    · refine ⟨hw, ?_⟩
      by_cases hpt : pt = CfgType.tGroup
      · exact Or.inl hpt
      · right
        revert hn
        simp [hpt]
    · exact ih hr c hc2

theorem cloneChildren_id (b : Bool) :
    ∀ cs : List Setting,
      (∀ c ∈ cs,
        ((∀ keep, clonePure .simple keep c =
            some (withRootName (if keep then c.name else none) c))
          ∧ clonePure .elem false c = some (withRootName none c))
        ∧ (b = true ∨ c.name = none)) →
      cloneChildren b cs = cs := by
  intro cs
  induction cs with
  | nil => intro _; simp [cloneChildren]
  | cons c rest ih =>
    intro h
    obtain ⟨⟨hs, he⟩, hn⟩ := h c (List.mem_cons_self c rest)
    have hrest := ih (fun x hx => h x (List.mem_cons_of_mem _ hx))
    cases b
    · have hn2 : c.name = none := by
        rcases hn with h0 | h0
        · cases h0
        · exact h0
      have hcl : clonePure .elem false c = some c := by
        rw [he, ← hn2, withRootName_self]
      simp [cloneChildren, hcl, hrest]
    · have hcl : clonePure .simple true c = some c := by
        rw [hs true]
        simp [withRootName_self]
      simp [cloneChildren, hcl, hrest]

theorem copiedScalar_wf (n : Option String) (t : CfgType) (f : CfgFormat)
    (v : CfgValue)
    (hwf : settingWF (Setting.mk n t f v []) = true)
    (hagg : config_setting_is_aggregate (Setting.mk n t f v []) = false) :
    ∀ keep, copiedScalar keep (Setting.mk n t f v []) =
      withRootName (if keep then n else none) (Setting.mk n t f v []) := by
  intro keep
  rw [settingWF] at hwf
  simp only [hagg, Bool.false_eq_true, if_false, Bool.and_eq_true,
    decide_eq_true_eq, Bool.or_eq_true] at hwf
  obtain ⟨⟨⟨hty5, hvm⟩, hfm⟩, _⟩ := hwf
  cases t <;> cases v <;>
    simp_all [copiedScalar, withRootName, addedName, valMatches, Setting.name,
      Setting.ty, Setting.fmt, Setting.val, Setting.children,
      config_setting_get_int, config_setting_get_int64,
      config_setting_get_float, config_setting_get_string,
      config_setting_get_bool, freshValue]

/-- On a well-formed source, both clone paths reproduce the source exactly,
except for the root name, which is kept only when `keep` is true. -/
theorem clonePure_wf : ∀ s : Setting, settingWF s = true →
    (∀ keep, clonePure .simple keep s =
      some (withRootName (if keep then s.name else none) s))
    ∧ clonePure .elem false s = some (withRootName none s) := by
  intro s
  induction s using Setting.strongInd with
  | step s ih =>
    intro hwf
    by_cases hagg : config_setting_is_aggregate s = true
    · rw [settingWF] at hwf
      simp only [hagg, if_true, Bool.and_eq_true, decide_eq_true_eq] at hwf
      obtain ⟨⟨hv, hf⟩, hch⟩ := hwf
      have hids : cloneChildren (config_setting_is_group s) s.children
          = s.children := by
        apply cloneChildren_id
        intro c hc
        have hcw := childrenWF_forall s.ty s.children hch c hc
        refine ⟨ih c (sizeOf_lt_of_mem_children hc) hcw.1, ?_⟩
        rcases hcw.2 with hg | hn
        · left
          simp [config_setting_is_group, hg]
        · exact Or.inr hn
      have hfv : freshValue s.ty = s.val := by
        rw [hv]
        have hdis : s.ty = CfgType.tGroup ∨ s.ty = CfgType.tArray
            ∨ s.ty = CfgType.tList := by
          revert hagg
          simp only [config_setting_is_aggregate, Bool.or_eq_true,
            decide_eq_true_eq]
          tauto
        rcases hdis with h0 | h0 | h0 <;> simp [freshValue, h0]
      constructor
      · intro keep
        rw [clonePure]
        simp only [hagg, if_true]
        simp [withRootName, hids, hfv, hf]
      · rw [clonePure]
        simp only [hagg, if_true]
        simp [withRootName, hids, hfv, hf]
    · obtain ⟨n, t, f, v, cs⟩ := s
      have hcs : cs = [] := by
        rw [settingWF] at hwf
        simp only [hagg, Bool.false_eq_true, if_false, Bool.and_eq_true] at hwf
        simpa [Setting.children] using hwf.2
      subst hcs
      have hag2 : config_setting_is_aggregate (Setting.mk n t f v []) = false := by
        revert hagg
        cases h : config_setting_is_aggregate (Setting.mk n t f v []) <;> simp
      have h5 : (t = CfgType.tInt || t = CfgType.tInt64 || t = CfgType.tFloat
          || t = CfgType.tString || t = CfgType.tBool) = true := by
        rw [settingWF] at hwf
        simp only [hag2, Bool.false_eq_true, if_false, Bool.and_eq_true] at hwf
        simpa [Setting.ty] using hwf.1.1.1
      constructor
      · intro keep
        rw [clonePure]
        simp only [hag2, Bool.false_eq_true, if_false]
        rw [copiedScalar_wf n t f v hwf hag2 keep]
        simp [Setting.name]
      · rw [clonePure]
        simp only [hag2, Bool.false_eq_true, if_false]
        simp only [Setting.ty] at h5 ⊢
        simp only [h5, if_true]
        rw [copiedScalar_wf n t f v hwf hag2 false]
        simp

/-! ## Claims C1-C3 -/

/-- Concrete nodes used by the witnesses and the counterexample. -/
def exGroupP : Setting := .mk none .tGroup .fDefault .vNone []

def exListP : Setting := .mk none .tList .fDefault .vNone []

def exArrayP : Setting := .mk none .tArray .fDefault .vNone []

def exNamedInt : Setting := .mk (some "a") .tInt .fDefault (.vInt 1) []

def exGroupS : Setting := .mk (some "g") .tGroup .fDefault .vNone [exNamedInt]

/-- C1 (amended): for a well-formed source subtree `S` and a destination
parent `P` of type Group or List, `config_setting_copy P S` returns true and
appends to `P` exactly one new child, identical to `S` at every node in
type, scalar value, format flag and child order, and in name at every node
except the clone's root: the root keeps `S`'s name when `P` is a Group and
is unnamed when `P` is a List. -/
theorem c1_copy_clone (P S : Setting) (hWF : settingWF S = true)
    (hP : config_setting_is_group P = true ∨ config_setting_is_list P = true) :
    config_setting_copy P S =
      (true, appendChild P
        (withRootName (if config_setting_is_group P then S.name else none) S)) := by
  have hguard : (!config_setting_is_group P && !config_setting_is_list P) = false := by
    rcases hP with h | h <;> simp [h]
  unfold config_setting_copy
  rw [hguard]
  simp only [Bool.false_eq_true, if_false]
  by_cases hagg : config_setting_is_aggregate S = true
  · simp only [hagg, if_true]
    have h1 : config_setting_copy_aggregate P S = config_setting_copy_simple P S := by
      rw [config_setting_copy_simple]
      simp [hagg]
    rw [h1, (copy_eq_clone S P).1,
      (clonePure_wf S hWF).1 (config_setting_is_group P)]
    rfl
  · simp only [hagg, Bool.false_eq_true, if_false]
    rw [(copy_eq_clone S P).1,
      (clonePure_wf S hWF).1 (config_setting_is_group P)]
    rfl

/-- Witness for C1's amended statement: a named integer copied into a fresh
group keeps its name and everything else. -/
theorem c1_copy_clone_witness :
    (settingWF exNamedInt = true
      ∧ (config_setting_is_group exGroupP = true
          ∨ config_setting_is_list exGroupP = true))
    ∧ config_setting_copy exGroupP exNamedInt =
        (true, appendChild exGroupP
          (withRootName
            (if config_setting_is_group exGroupP then exNamedInt.name else none)
            exNamedInt)) :=
  ⟨⟨by simp [settingWF, exNamedInt, config_setting_is_aggregate, Setting.ty,
      Setting.val, Setting.fmt, Setting.children, valMatches],
    Or.inl (by decide)⟩,
    c1_copy_clone exGroupP exNamedInt
      (by simp [settingWF, exNamedInt, config_setting_is_aggregate, Setting.ty,
        Setting.val, Setting.fmt, Setting.children, valMatches])
      (Or.inl (by decide))⟩

/-- Counterexample to C1 as stated: copying the named scalar `exNamedInt`
into a `List` parent returns true, but the created child is
`withRootName none exNamedInt`, which differs from the source (the name
`"a"` is dropped), so no identical clone is created. -/
theorem c1_counterexample :
    config_setting_copy exListP exNamedInt =
      (true, appendChild exListP (withRootName none exNamedInt))
    ∧ withRootName none exNamedInt ≠ exNamedInt
    ∧ config_setting_copy exListP exNamedInt ≠
        (true, appendChild exListP exNamedInt) := by
  have h1 : config_setting_copy exListP exNamedInt =
      (true, appendChild exListP (withRootName none exNamedInt)) := by
    have h2 := (copy_eq_clone exNamedInt exListP).1
    have h3 : config_setting_is_group exListP = false := by decide
    rw [h3] at h2
    rw [(clonePure_wf exNamedInt (by simp [settingWF, exNamedInt,
      config_setting_is_aggregate, Setting.ty, Setting.val, Setting.fmt,
      Setting.children, valMatches])).1 false] at h2
    unfold config_setting_copy
    rw [show (!config_setting_is_group exListP
        && !config_setting_is_list exListP) = false from by decide]
    rw [show config_setting_is_aggregate exNamedInt = false from by decide]
    simp only [Bool.false_eq_true, if_false]
    rw [h2]
    simp [appendChildOpt]
  have h2 : withRootName none exNamedInt ≠ exNamedInt := by
    simp [withRootName, exNamedInt, Setting.ty, Setting.name, Setting.fmt,
      Setting.val, Setting.children]
  refine ⟨h1, h2, ?_⟩
  rw [h1]
  intro h
  apply h2
  have h4 := congrArg (fun r : Bool × Setting => r.2.children) h
  simpa [appendChild, exListP, Setting.children] using h4

/-- C2: `config_setting_copy` returns false and leaves the destination (and
the source, which the pure copy functions never rebuild) unchanged whenever
the destination parent is neither a Group nor a List; for a Group or List
destination it returns true. -/
theorem c2_top_level_guard (P S : Setting) :
    (config_setting_is_group P = false → config_setting_is_list P = false →
      config_setting_copy P S = (false, P))
    ∧ (config_setting_is_group P = true ∨ config_setting_is_list P = true →
      (config_setting_copy P S).1 = true) := by
  constructor
  · intro hg hl
    unfold config_setting_copy
    simp [hg, hl]
  · intro h
    have hguard : (!config_setting_is_group P && !config_setting_is_list P)
        = false := by
      rcases h with h | h <;> simp [h]
    unfold config_setting_copy
    rw [hguard]
    simp only [Bool.false_eq_true, if_false]
    split <;> rfl

/-- Witness for C2: an `Array` destination is rejected without mutation, a
`List` destination succeeds. -/
theorem c2_top_level_guard_witness :
    config_setting_copy exArrayP exNamedInt = (false, exArrayP)
    ∧ (config_setting_copy exListP exNamedInt).1 = true :=
  ⟨(c2_top_level_guard exArrayP exNamedInt).1 (by decide) (by decide),
    (c2_top_level_guard exListP exNamedInt).2 (Or.inr (by decide))⟩

/-- C3: `config_setting_copy_aggregate` dispatches on the source kind: a
`Group` source has each child (in order) copied via the named path
(`clonePure .simple true`, which preserves names — on well-formed children
it reproduces them identically, names at every depth included); an `Array`
or `List` source has each child copied via the positional path
(`clonePure .elem false`), under which a nested aggregate's clone carries
no name. -/
theorem c3_dispatch :
    (∀ P S : Setting, config_setting_is_group S = true →
      config_setting_copy_aggregate P S = appendChild P
        (Setting.mk (addedName (config_setting_is_group P) S.name) S.ty
          CfgFormat.fDefault (freshValue S.ty) (cloneChildren true S.children)))
    ∧ (∀ P S : Setting, config_setting_is_aggregate S = true →
        config_setting_is_group S = false →
        config_setting_copy_aggregate P S = appendChild P
          (Setting.mk (addedName (config_setting_is_group P) S.name) S.ty
            CfgFormat.fDefault (freshValue S.ty)
            (cloneChildren false S.children)))
    ∧ (∀ c : Setting, settingWF c = true → clonePure .simple true c = some c)
    ∧ (∀ c : Setting, config_setting_is_aggregate c = true →
        (clonePure .elem false c).map Setting.name = some none) := by
  refine ⟨?_, ?_, ?_, ?_⟩
  · intro P S hg
    rw [config_setting_copy_aggregate, hg,
      agg_loop_eq true _ _
        (by simp only [config_setting_is_group, Setting.ty] at hg ⊢; simp [hg])
        (fun c _ p => copy_eq_clone c p)]
    simp [Setting.name, Setting.ty, Setting.fmt, Setting.val, Setting.children]
  · intro P S _ hg
    rw [config_setting_copy_aggregate, hg,
      agg_loop_eq false _ _
        (by simp only [config_setting_is_group, Setting.ty] at hg ⊢; simp [hg])
        (fun c _ p => copy_eq_clone c p)]
    simp [Setting.name, Setting.ty, Setting.fmt, Setting.val, Setting.children]
  · intro c h
    rw [(clonePure_wf c h).1 true]
    simp [withRootName_self]
  · intro c hagg
    rw [clonePure]
    simp [hagg, Setting.name]

/-- Witness for C3: the group dispatch at a concrete group source and the
name erasure of the positional path at a concrete list source. -/
theorem c3_dispatch_witness :
    (config_setting_is_group exGroupS = true
      ∧ config_setting_copy_aggregate exGroupP exGroupS = appendChild exGroupP
          (Setting.mk (addedName (config_setting_is_group exGroupP) exGroupS.name)
            exGroupS.ty CfgFormat.fDefault (freshValue exGroupS.ty)
            (cloneChildren true exGroupS.children)))
    ∧ (config_setting_is_aggregate exListP = true
        ∧ (clonePure .elem false exListP).map Setting.name = some none) :=
  ⟨⟨by decide, c3_dispatch.1 exGroupP exGroupS (by decide)⟩,
    ⟨by decide, c3_dispatch.2.2.2 exListP (by decide)⟩⟩

/-! ## Heap-level model for the frame property (claim C10)

To state that a copy leaves the source nodes untouched, the trees are also
modelled at the level of the mutable node store: an arena of nodes addressed
by index, in which the copy functions perform their writes.  Divergent
executions (possible only when the destination parent is aliased into the
source subtree) are modelled by fuel. -/

namespace Heap

/-- Modelled from the spec: a stored setting node; children are arena
indices. -/
structure HNode where
  name : Option String
  ty : CfgType
  fmt : CfgFormat
  val : CfgValue
  children : List Nat
deriving DecidableEq

/-- The node arena: index `i` holds node `st[i]`. -/
abbrev HStore := List HNode

def defaultHNode : HNode :=
  HNode.mk none CfgType.tNone CfgFormat.fDefault CfgValue.vNone []

def hGet (st : HStore) (i : Nat) : HNode := (st[i]?).getD defaultHNode

def hIsGroup (st : HStore) (i : Nat) : Bool := (hGet st i).ty = CfgType.tGroup

def hIsList (st : HStore) (i : Nat) : Bool := (hGet st i).ty = CfgType.tList

def hIsAggregate (st : HStore) (i : Nat) : Bool :=
  (hGet st i).ty = CfgType.tGroup || (hGet st i).ty = CfgType.tArray
    || (hGet st i).ty = CfgType.tList

def hGetInt (st : HStore) (i : Nat) : Int :=
  match (hGet st i).val with
  | .vInt k => k
  | _ => 0

def hGetInt64 (st : HStore) (i : Nat) : Int :=
  match (hGet st i).val with
  | .vInt64 k => k
  | _ => 0

def hGetFloat (st : HStore) (i : Nat) : Nat :=
  match (hGet st i).val with
  | .vFloat k => k
  | _ => 0

def hGetString (st : HStore) (i : Nat) : String :=
  match (hGet st i).val with
  | .vString k => k
  | _ => ""

def hGetBool (st : HStore) (i : Nat) : Bool :=
  match (hGet st i).val with
  | .vBool k => k
  | _ => false

/-- Write the child list of node `i`. -/
def hSetChildren (st : HStore) (i : Nat) (cs : List Nat) : HStore :=
  st.set i (HNode.mk (hGet st i).name (hGet st i).ty (hGet st i).fmt
    (hGet st i).val cs)

/-- Modelled from the spec: `config_setting_add` — allocate a fresh node of
the given type (named only under a Group parent) and link it at the end of
the parent's child list; returns the new store and the new node's index. -/
def hAdd (st : HStore) (p : Nat) (name : Option String) (ty : CfgType) :
    HStore × Nat :=
  (hSetChildren st p ((hGet st p).children ++ [st.length])
      ++ [HNode.mk (if (hGet st p).ty = CfgType.tGroup then name else none)
        ty CfgFormat.fDefault (freshValue ty) []],
    st.length)

/-- Modelled from the spec: the typed setters write the payload of their
target node. -/
def hSetVal (st : HStore) (i : Nat) (v : CfgValue) : HStore :=
  st.set i (HNode.mk (hGet st i).name (hGet st i).ty (hGet st i).fmt v
    (hGet st i).children)

/-- Modelled from the spec: `config_setting_set_format`. -/
def hSetFmt (st : HStore) (i : Nat) (f : CfgFormat) : HStore :=
  st.set i (HNode.mk (hGet st i).name (hGet st i).ty f (hGet st i).val
    (hGet st i).children)

/-- Modelled from the spec: `config_setting_set_<type>_elem(parent, -1, v)`
— allocate a fresh unnamed node with the given type and payload and link it
at the end of the parent's child list. -/
def hAddElem (st : HStore) (p : Nat) (ty : CfgType) (v : CfgValue) :
    HStore × Nat :=
  (hSetChildren st p ((hGet st p).children ++ [st.length])
      ++ [HNode.mk none ty CfgFormat.fDefault v []],
    st.length)

mutual

/-- Fuel-indexed heap embedding of `config_setting_copy_simple`
(src/contrib/copy_setting.c, lines 33-62). -/
def hCopySimple : Nat → HStore → Nat → Nat → Option HStore
  | 0, _, _, _ => none
  | fuel + 1, st, p, s =>
    if hIsAggregate st s then hCopyAggregate fuel st p s
    else
      let r := hAdd st p (hGet st s).name (hGet st s).ty
      if (hGet r.1 s).ty = CfgType.tInt then
        some (hSetFmt (hSetVal r.1 r.2 (CfgValue.vInt (hGetInt r.1 s))) r.2
          (hGet r.1 s).fmt)
      else if (hGet r.1 s).ty = CfgType.tInt64 then
        some (hSetFmt (hSetVal r.1 r.2 (CfgValue.vInt64 (hGetInt64 r.1 s))) r.2
          (hGet r.1 s).fmt)
      else if (hGet r.1 s).ty = CfgType.tFloat then
        some (hSetVal r.1 r.2 (CfgValue.vFloat (hGetFloat r.1 s)))
      else if (hGet r.1 s).ty = CfgType.tString then
        some (hSetVal r.1 r.2 (CfgValue.vString (hGetString r.1 s)))
      else if (hGet r.1 s).ty = CfgType.tBool then
        some (hSetVal r.1 r.2 (CfgValue.vBool (hGetBool r.1 s)))
      else some r.1
termination_by structural fuel _ _ _ => fuel

/-- Fuel-indexed heap embedding of `config_setting_copy_elem`
(src/contrib/copy_setting.c, lines 64-87). -/
def hCopyElem : Nat → HStore → Nat → Nat → Option HStore
  | 0, _, _, _ => none
  | fuel + 1, st, p, s =>
    if hIsAggregate st s then hCopyAggregate fuel st p s
    else if (hGet st s).ty = CfgType.tInt then
      let r := hAddElem st p CfgType.tInt (CfgValue.vInt (hGetInt st s))
      some (hSetFmt r.1 r.2 (hGet r.1 s).fmt)
    else if (hGet st s).ty = CfgType.tInt64 then
      let r := hAddElem st p CfgType.tInt64 (CfgValue.vInt64 (hGetInt64 st s))
      some (hSetFmt r.1 r.2 (hGet r.1 s).fmt)
    else if (hGet st s).ty = CfgType.tFloat then
      some (hAddElem st p CfgType.tFloat (CfgValue.vFloat (hGetFloat st s))).1
    else if (hGet st s).ty = CfgType.tString then
      some (hAddElem st p CfgType.tString (CfgValue.vString (hGetString st s))).1
    else if (hGet st s).ty = CfgType.tBool then
      some (hAddElem st p CfgType.tBool (CfgValue.vBool (hGetBool st s))).1
    else some st
termination_by structural fuel _ _ _ => fuel

/-- Fuel-indexed heap embedding of `config_setting_copy_aggregate`
(src/contrib/copy_setting.c, lines 89-108): the fresh aggregate is created
first, and the child count `n` is read afterwards, exactly as in the C
code. -/
def hCopyAggregate : Nat → HStore → Nat → Nat → Option HStore
  | 0, _, _, _ => none
  | fuel + 1, st, p, s =>
    let r := hAdd st p (hGet st s).name (hGet st s).ty
    hCopyLoop fuel r.1 r.2 s 0 ((hGet r.1 s).children.length)
termination_by structural fuel _ _ _ => fuel

/-- The child loop of `config_setting_copy_aggregate`: on each iteration
the current element of the source is re-read from the current store. -/
def hCopyLoop : Nat → HStore → Nat → Nat → Nat → Nat → Option HStore
  | 0, _, _, _, _, _ => none
  | fuel + 1, st, nid, s, i, n =>
    if i < n then
      match (if hIsGroup st s
             then hCopySimple fuel st nid (((hGet st s).children[i]?).getD 0)
             else hCopyElem fuel st nid (((hGet st s).children[i]?).getD 0)) with
      | some st2 => hCopyLoop fuel st2 nid s (i + 1) n
      | none => none
    else some st
termination_by structural fuel _ _ _ _ _ => fuel

end

/-- Fuel-indexed heap embedding of `config_setting_copy`
(src/contrib/copy_setting.c, lines 110-126). -/
def hConfigSettingCopy (fuel : Nat) (st : HStore) (p s : Nat) :
    Option (HStore × Bool) :=
  if !hIsGroup st p && !hIsList st p then some (st, false)
  else
    match (if hIsAggregate st s then hCopyAggregate fuel st p s
           else hCopySimple fuel st p s) with
    | some st2 => some (st2, true)
    | none => none

/-! ### Frame lemmas: a copy writes only the destination parent and fresh
nodes -/

theorem set_frame (st : HStore) (i : Nat) (a : HNode) :
    ∀ j, j ≠ i → (st.set i a)[j]? = st[j]? :=
  fun _ hj => List.getElem?_set_ne (Ne.symm hj)

theorem hSetChildren_frame (st : HStore) (i : Nat) (cs : List Nat) :
    ∀ j, j ≠ i → (hSetChildren st i cs)[j]? = st[j]? := by
  intro j hj
  unfold hSetChildren
  exact set_frame st i _ j hj

theorem hSetVal_frame (st : HStore) (i : Nat) (v : CfgValue) :
    ∀ j, j ≠ i → (hSetVal st i v)[j]? = st[j]? := by
  intro j hj
  unfold hSetVal
  exact set_frame st i _ j hj

theorem hSetFmt_frame (st : HStore) (i : Nat) (f : CfgFormat) :
    ∀ j, j ≠ i → (hSetFmt st i f)[j]? = st[j]? := by
  intro j hj
  unfold hSetFmt
  exact set_frame st i _ j hj

theorem hSetVal_length (st : HStore) (i : Nat) (v : CfgValue) :
    (hSetVal st i v).length = st.length := by
  simp [hSetVal]

theorem hSetFmt_length (st : HStore) (i : Nat) (f : CfgFormat) :
    (hSetFmt st i f).length = st.length := by
  simp [hSetFmt]

theorem hAdd_length (st : HStore) (p : Nat) (nm : Option String) (ty : CfgType) :
    (hAdd st p nm ty).1.length = st.length + 1 := by
  simp [hAdd, hSetChildren]

theorem hAdd_frame (st : HStore) (p : Nat) (nm : Option String) (ty : CfgType) :
    ∀ j, j < st.length → j ≠ p → (hAdd st p nm ty).1[j]? = st[j]? := by
  intro j hj hp
  unfold hAdd
  simp only []
  rw [List.getElem?_append_left (by simp [hSetChildren]; omega)]
  exact hSetChildren_frame st p _ j hp

theorem hAddElem_length (st : HStore) (p : Nat) (ty : CfgType) (v : CfgValue) :
    (hAddElem st p ty v).1.length = st.length + 1 := by
  simp [hAddElem, hSetChildren]

theorem hAddElem_frame (st : HStore) (p : Nat) (ty : CfgType) (v : CfgValue) :
    ∀ j, j < st.length → j ≠ p → (hAddElem st p ty v).1[j]? = st[j]? := by
  intro j hj hp
  unfold hAddElem
  simp only []
  rw [List.getElem?_append_left (by simp [hSetChildren]; omega)]
  exact hSetChildren_frame st p _ j hp

/-- The frame property of all four copy functions, by induction on fuel:
whenever a call returns, the store has only grown, and every pre-existing
node other than the destination parent is untouched. -/
theorem hFrame : ∀ fuel : Nat,
    (∀ st p s st2, hCopySimple fuel st p s = some st2 →
      st.length ≤ st2.length
      ∧ ∀ i, i < st.length → i ≠ p → st2[i]? = st[i]?)
    ∧ (∀ st p s st2, hCopyElem fuel st p s = some st2 →
      st.length ≤ st2.length
      ∧ ∀ i, i < st.length → i ≠ p → st2[i]? = st[i]?)
    ∧ (∀ st p s st2, hCopyAggregate fuel st p s = some st2 →
      st.length ≤ st2.length
      ∧ ∀ i, i < st.length → i ≠ p → st2[i]? = st[i]?)
    ∧ (∀ st nid s i0 n st2, hCopyLoop fuel st nid s i0 n = some st2 →
      st.length ≤ st2.length
      ∧ ∀ i, i < st.length → i ≠ nid → st2[i]? = st[i]?) := by
  intro fuel
  induction fuel with
  | zero =>
    refine ⟨?_, ?_, ?_, ?_⟩
    · intro st p s st2 h
      simp [hCopySimple] at h
    · intro st p s st2 h
      simp [hCopyElem] at h
    · intro st p s st2 h
      simp [hCopyAggregate] at h
    · intro st nid s i0 n st2 h
      simp [hCopyLoop] at h
  | succ fuel ih =>
    obtain ⟨ihS, ihE, ihA, ihL⟩ := ih
    have hScalarS : ∀ st p s st2, hCopySimple (fuel + 1) st p s = some st2 →
        st.length ≤ st2.length
        ∧ ∀ i, i < st.length → i ≠ p → st2[i]? = st[i]? := by
      intro st p s st2 h
      simp only [hCopySimple] at h
      split_ifs at h
      · exact ihA st p s st2 h
      all_goals first
        | (injection h with h2
           subst h2
           refine ⟨by (simp only [hSetFmt_length, hSetVal_length, hAdd_length]; omega), ?_⟩
           intro i hi hp
           rw [hSetFmt_frame _ _ _ i (by simp only [hAdd]; omega),
             hSetVal_frame _ _ _ i (by simp only [hAdd]; omega)]
           exact hAdd_frame st p _ _ i hi hp)
        | (injection h with h2
           subst h2
           refine ⟨by (simp only [hSetVal_length, hAdd_length]; omega), ?_⟩
           intro i hi hp
           rw [hSetVal_frame _ _ _ i (by simp only [hAdd]; omega)]
           exact hAdd_frame st p _ _ i hi hp)
        | (injection h with h2
           subst h2
           refine ⟨by (simp only [hAdd_length]; omega), ?_⟩
           intro i hi hp
           exact hAdd_frame st p _ _ i hi hp)
    have hScalarE : ∀ st p s st2, hCopyElem (fuel + 1) st p s = some st2 →
        st.length ≤ st2.length
        ∧ ∀ i, i < st.length → i ≠ p → st2[i]? = st[i]? := by
      intro st p s st2 h
      simp only [hCopyElem] at h
      split_ifs at h
      · exact ihA st p s st2 h
      all_goals first
        | (injection h with h2
           subst h2
           refine ⟨by (simp only [hSetFmt_length, hAddElem_length]; omega), ?_⟩
           intro i hi hp
           rw [hSetFmt_frame _ _ _ i (by simp only [hAddElem]; omega)]
           exact hAddElem_frame st p _ _ i hi hp)
        | (injection h with h2
           subst h2
           refine ⟨by (simp only [hAddElem_length]; omega), ?_⟩
           intro i hi hp
           exact hAddElem_frame st p _ _ i hi hp)
        | (injection h with h2
           subst h2
           exact ⟨Nat.le_refl _, fun i _ _ => rfl⟩)
    refine ⟨hScalarS, hScalarE, ?_, ?_⟩
    · intro st p s st2 h
      simp only [hCopyAggregate] at h
      have hlen := hAdd_length st p (hGet st s).name (hGet st s).ty
      have hfr := hAdd_frame st p (hGet st s).name (hGet st s).ty
      obtain ⟨hl1, hl2⟩ := ihL _ _ _ _ _ _ h
      refine ⟨by omega, ?_⟩
      intro i hi hp
      rw [hl2 i (by omega) (by show i ≠ st.length; omega)]
      exact hfr i hi hp
    · intro st nid s i0 n st2 h
      rw [hCopyLoop] at h
      split at h
      · split at h
        · rename_i st3 hstep
          have hstep2 : st.length ≤ st3.length
              ∧ ∀ i, i < st.length → i ≠ nid → st3[i]? = st[i]? := by
            split at hstep
            · exact ihS _ _ _ _ hstep
            · exact ihE _ _ _ _ hstep
          obtain ⟨ha1, ha2⟩ := hstep2
          obtain ⟨hb1, hb2⟩ := ihL _ _ _ _ _ _ h
          refine ⟨by omega, ?_⟩
          intro i hi hp
          rw [hb2 i (by omega) hp]
          exact ha2 i hi hp
        · cases h
      · injection h with h2
        subst h2
        exact ⟨Nat.le_refl _, fun i _ _ => rfl⟩

/-- C10: every returning call of `config_setting_copy` (heap model, any
fuel), whether it reports success or failure, leaves every pre-existing node
other than the destination parent completely unchanged — name, type, format
flag, scalar value and child sequence.  In particular the whole source
subtree is unchanged, since in the spec's two-tree layout the destination
parent is not a node of the source subtree. -/
theorem c10_source_frame (fuel : Nat) (st : HStore) (p s : Nat)
    (st2 : HStore) (b : Bool)
    (h : hConfigSettingCopy fuel st p s = some (st2, b)) :
    ∀ i, i < st.length → i ≠ p → st2[i]? = st[i]? := by
  unfold hConfigSettingCopy at h
  split at h
  · injection h with h2
    injection h2 with h3 h4
    subst h3
    intro i _ _
    rfl
  · split at h
    · rename_i st3 hres
      injection h with h2
      injection h2 with h3 h4
      subst h3
      split at hres
      · exact ((hFrame fuel).2.2.1 st p s st3 hres).2
      · exact ((hFrame fuel).1 st p s st3 hres).2
    · cases h

/-- The two-node arena used by the C10 witness: node 0 is an empty group
(the destination parent), node 1 a named integer (the source). -/
def exStore : HStore :=
  [HNode.mk none CfgType.tGroup CfgFormat.fDefault CfgValue.vNone [],
   HNode.mk (some "a") CfgType.tInt CfgFormat.fDefault (CfgValue.vInt 7) []]

/-- The arena after copying node 1 into node 0 with fuel 4. -/
def exStoreRes : HStore :=
  [HNode.mk none CfgType.tGroup CfgFormat.fDefault CfgValue.vNone [2],
   HNode.mk (some "a") CfgType.tInt CfgFormat.fDefault (CfgValue.vInt 7) [],
   HNode.mk (some "a") CfgType.tInt CfgFormat.fDefault (CfgValue.vInt 7) []]

/-- Witness for C10: on the concrete arena the copy returns, and the source
node 1 is bit-for-bit unchanged. -/
theorem c10_source_frame_witness :
    (1 < exStore.length ∧ (1 : Nat) ≠ 0
      ∧ hConfigSettingCopy 4 exStore 0 1 = some (exStoreRes, true))
    ∧ exStoreRes[1]? = exStore[1]? :=
  ⟨⟨by decide, by decide, by decide⟩,
    c10_source_frame 4 exStore 0 1 exStoreRes true (by decide) 1 (by decide)
      (by decide)⟩

end Heap

end LibConfig
